import Mathlib

set_option maxHeartbeats 1000000

/-!
Verification of the h3o discrete-grid core: the cell-index algebra
(validated 64-bit encoding, successor/predecessor enumeration,
parent/child navigation, textual representations) and the geometry
ingestion/dispatch layer.
-/

/-- Modelled from the spec: the 12 pentagon base cells (spec §2, §3).  The
concrete membership set belongs to the external base-cell reference tables
(spec §6, §9) and is reproduced from the H3 reference data; the fixture
`0o42404000000000077777` of spec §8 pins base cell 4 as a pentagon. -/
def pentagonBaseCells : List Nat := [4, 14, 24, 38, 49, 58, 63, 72, 83, 97, 107, 117]

def isPentagon (b : Nat) : Bool := pentagonBaseCells.contains b

/-- Modelled from the spec (§3): a cell index as resolution, base cell, and
the significant digit slots (resolution 1 up to the cell's resolution, in
order).  The missing `CellIndex` implementation is represented by this
record together with the packed encoding `CellIndex.toRaw`. -/
structure CellIndex where
  resolution : Nat
  baseCell : Nat
  digits : List Nat
deriving DecidableEq

/-- Modelled from the spec (§3): the digit-sequence invariant.  Every
significant digit is a real direction (0-6); under a pentagon base cell the
first nonzero digit of the path is never the invalid direction 1 (the
"deleted subsequence" restriction, propagated along the all-zero path,
spec §3, §4.1 and glossary).  The flag records whether the pentagon
restriction is still active: the base cell is a pentagon and every
shallower digit is 0. -/
def digitsOk (pent : Bool) : List Nat → Bool
  | [] => true
  | d :: rest => decide (d ≤ 6) && !(pent && d == 1) && digitsOk (pent && d == 0) rest

/-- Modelled from the spec (§3): validity of a cell-index value. -/
def CellIndex.Valid (c : CellIndex) : Prop :=
  c.resolution ≤ 15 ∧ c.baseCell ≤ 121 ∧ c.digits.length = c.resolution ∧
    digitsOk (isPentagon c.baseCell) c.digits = true

instance (c : CellIndex) : Decidable c.Valid := by
  unfold CellIndex.Valid
  infer_instance

/-- Modelled from the spec (§4.1): one odometer increment over the
significant digit slots, deepest slot first, skipping the invalid pentagon
direction and carrying on overflow.  `none` means the carry propagated past
the shallowest slot. -/
def incDigits (pent : Bool) : List Nat → Option (List Nat)
  | [] => none
  | d :: rest =>
    match incDigits (pent && d == 0) rest with
    | some rest' => some (d :: rest')
    | none =>
      let d' := if pent && d == 0 then 2 else d + 1
      if d' ≤ 6 then some (d' :: rest.map fun _ => 0) else none

/-- Modelled from the spec (§4.1): the mirror decrement (borrow instead of
carry); `none` means the borrow propagated past the shallowest slot. -/
def decDigits (pent : Bool) : List Nat → Option (List Nat)
  | [] => none
  | d :: rest =>
    match decDigits (pent && d == 0) rest with
    | some rest' => some (d :: rest')
    | none =>
      if d = 0 then none
      else
        let d' := if pent && d == 2 then 0 else d - 1
        some (d' :: rest.map fun _ => 6)

/-- Modelled from the spec (§4.1): successor in index order at the same
resolution; on carry past the shallowest digit the base cell advances (all
122 are valid) with the digits reset to their minimum, and the maximum
index (base cell 121) has no successor. -/
def CellIndex.succ (c : CellIndex) : Option CellIndex :=
  match incDigits (isPentagon c.baseCell) c.digits with
  | some ds => some { c with digits := ds }
  | none =>
    if c.baseCell = 121 then none
    else some ⟨c.resolution, c.baseCell + 1, c.digits.map fun _ => 0⟩

/-- Modelled from the spec (§4.1): predecessor in index order; rolls the
base cell back on underflow of the shallowest digit, and the minimum index
(base cell 0) has no predecessor. -/
def CellIndex.pred (c : CellIndex) : Option CellIndex :=
  match decDigits (isPentagon c.baseCell) c.digits with
  | some ds => some { c with digits := ds }
  | none =>
    if c.baseCell = 0 then none
    else some ⟨c.resolution, c.baseCell - 1, c.digits.map fun _ => 6⟩

/-- Modelled from the spec (§4.1): the minimum index at a resolution. -/
def CellIndex.first (r : Nat) : CellIndex := ⟨r, 0, List.replicate r 0⟩

/-- Modelled from the spec (§4.1): the maximum index at a resolution. -/
def CellIndex.last (r : Nat) : CellIndex := ⟨r, 121, List.replicate r 6⟩

/-- Value of a list of 3-bit slots read as base-8 digits, most significant
first. -/
def ofOctal (l : List Nat) : Nat := l.foldl (fun a d => a * 8 + d) 0

/-- Modelled from the spec (§3, §6): the packed 64-bit encoding: mode tag 1
in bits 59-62, reserved bits zero, resolution in bits 52-55, base cell in
bits 45-51, then fifteen 3-bit digit slots (resolution 1 first), slots
beyond the resolution holding the unused marker 7.  The bit positions are
pinned by the octal/binary fixtures of spec §8. -/
def CellIndex.toRaw (c : CellIndex) : Nat :=
  8 * 2 ^ 56 + c.resolution * 2 ^ 52 + c.baseCell * 2 ^ 45 +
    ofOctal (c.digits ++ List.replicate (15 - c.resolution) 7)

/-- Modelled from the spec (§3, §4.1): validated construction from a raw
value: mode tag and reserved bits checked, base cell in range, significant
digits real directions obeying the pentagon restriction, slots beyond the
resolution all unused. -/
def rawSlots (u : Nat) : List Nat := (List.range 15).map fun i => u / 8 ^ (14 - i) % 8

def tryFrom (u : Nat) : Option CellIndex :=
  if u / 2 ^ 56 = 8 ∧ u / 2 ^ 45 % 128 ≤ 121 ∧
      digitsOk (isPentagon (u / 2 ^ 45 % 128)) ((rawSlots u).take (u / 2 ^ 52 % 16)) = true ∧
      ((rawSlots u).drop (u / 2 ^ 52 % 16)).all (· == 7) = true
  then some ⟨u / 2 ^ 52 % 16, u / 2 ^ 45 % 128, (rawSlots u).take (u / 2 ^ 52 % 16)⟩
  else none

/-- Modelled from the spec (§4.1): the ancestor at a target resolution is
obtained by truncating the digit path; the target must not exceed the
current resolution. -/
def CellIndex.parent (c : CellIndex) (r : Nat) : Option CellIndex :=
  if r ≤ c.resolution then some ⟨r, c.baseCell, c.digits.take r⟩ else none

/-- Number of digit suffixes of the given length that are valid below a
cell lying on the deleted subsequence of a pentagon (spec §4.1: radix 6 at
the first restricted level, radix 7 below a nonzero digit). -/
def pentCount : Nat → Nat
  | 0 => 1
  | n + 1 => pentCount n + 5 * 7 ^ n

/-- Modelled from the spec (§4.1): the mixed-radix position of a digit
suffix among all suffixes of its length, ordered by increasing
digit-sequence value with the pentagon restriction applied (the invalid
direction 1 is skipped and the numbering compacted). -/
def childPosAux (pent : Bool) : List Nat → Nat
  | [] => 0
  | d :: rest =>
    if pent then
      if d == 0 then childPosAux true rest
      else pentCount rest.length + (d - 2) * 7 ^ rest.length + childPosAux false rest
    else d * 7 ^ rest.length + childPosAux false rest

/-- Modelled from the spec (§4.1): decompose a mixed-radix position into a
digit suffix of the given length, failing when the position is at least the
total descendant count. -/
def childAtAux (pent : Bool) : Nat → Nat → Option (List Nat)
  | 0, pos => if pos = 0 then some [] else none
  | n + 1, pos =>
    if pent then
      if pos < pentCount n then (childAtAux true n pos).map fun l => 0 :: l
      else
        let pos' := pos - pentCount n
        let d := pos' / 7 ^ n + 2
        if d ≤ 6 then (childAtAux false n (pos' % 7 ^ n)).map fun l => d :: l else none
    else
      let d := pos / 7 ^ n
      if d ≤ 6 then (childAtAux false n (pos % 7 ^ n)).map fun l => d :: l else none

/-- Modelled from the spec (§4.1): the descendant at `target` identified by
a 0-based linear position; requires `target` at or below the current
resolution (finer), with the pentagon radix-6 rule active exactly on the
all-zero path under a pentagon base cell. -/
def CellIndex.childAt (c : CellIndex) (pos : Nat) (target : Nat) : Option CellIndex :=
  if c.resolution ≤ target then
    match childAtAux (isPentagon c.baseCell && c.digits.all (· == 0)) (target - c.resolution) pos with
    | some ds => some ⟨target, c.baseCell, c.digits ++ ds⟩
    | none => none
  else none

/-- Modelled from the spec (§4.1): the exact inverse of `childAt`:
reconstruct the mixed-radix position of `c` among the descendants of its
ancestor at `r`; `none` when `r` exceeds the current resolution. -/
def CellIndex.childPosition (c : CellIndex) (r : Nat) : Option Nat :=
  if r ≤ c.resolution then
    some (childPosAux (isPentagon c.baseCell && (c.digits.take r).all (· == 0)) (c.digits.drop r))
  else none

/-- Character for a digit value below 16, as a decimal digit or a lower or
upper case letter. -/
def digitChar (upper : Bool) (n : Nat) : Char :=
  if n < 10 then Char.ofNat (48 + n) else Char.ofNat ((if upper then 55 else 87) + n)

/-- Fuel-driven positional expansion of a number in a radix, most
significant digit first, without leading zeros. -/
def toRadixAux (upper : Bool) (b : Nat) : Nat → Nat → List Char → List Char
  | 0, _, acc => acc
  | fuel + 1, n, acc =>
    if n < b then digitChar upper (n % b) :: acc
    else toRadixAux upper b fuel (n / b) (digitChar upper (n % b) :: acc)

/-- Modelled from the spec (§6): rendering of a value in a radix; fuel
`n + 1` always suffices because the value shrinks at every step. -/
def toRadixStr (upper : Bool) (b n : Nat) : String :=
  String.mk (toRadixAux upper b (n + 1) n [])

/-- Modelled from the spec (§6): the default display is the lowercase
hexadecimal rendering of the 64-bit value. -/
def CellIndex.display (c : CellIndex) : String := toRadixStr false 16 c.toRaw

/-- Modelled from the spec (§6): uppercase hexadecimal rendering. -/
def CellIndex.displayUpperHex (c : CellIndex) : String := toRadixStr true 16 c.toRaw

/-- Modelled from the spec (§6): octal rendering. -/
def CellIndex.displayOctal (c : CellIndex) : String := toRadixStr false 8 c.toRaw

/-- Modelled from the spec (§6): binary rendering. -/
def CellIndex.displayBinary (c : CellIndex) : String := toRadixStr false 2 c.toRaw

/-- Value of a hexadecimal digit character, case-insensitive. -/
def hexVal (ch : Char) : Option Nat :=
  if 48 ≤ ch.toNat ∧ ch.toNat ≤ 57 then some (ch.toNat - 48)
  else if 97 ≤ ch.toNat ∧ ch.toNat ≤ 102 then some (ch.toNat - 87)
  else if 65 ≤ ch.toNat ∧ ch.toNat ≤ 70 then some (ch.toNat - 55)
  else none

def parseHexAux : List Char → Nat → Option Nat
  | [], acc => some acc
  | ch :: rest, acc =>
    match hexVal ch with
    | some v => parseHexAux rest (acc * 16 + v)
    | none => none

/-- Modelled from the spec (§4.1, §6): parsing of the default form: the
string must be a nonempty case-insensitive hexadecimal numeral whose value
fits in 64 bits and passes cell-index validation; `none` stands for the
parse error. -/
def parseCellChars (l : List Char) : Option CellIndex :=
  if l = [] then none
  else
    match parseHexAux l 0 with
    | some v => if v < 2 ^ 64 then tryFrom v else none
    | none => none

def parseCell (s : String) : Option CellIndex := parseCellChars s.data

/-- An IEEE-754 double value, modelled as an exact rational together with
the non-finite values. -/
inductive F64 where
  | val (q : ℚ)
  | posInf
  | negInf
  | nan
deriving DecidableEq

def F64.isFinite : F64 → Bool
  | val _ => true
  | _ => false

/-- IEEE less-or-equal: any comparison involving NaN is false; infinities
compare as extreme values. -/
def F64.fle : F64 → F64 → Bool
  | nan, _ => false
  | _, nan => false
  | negInf, _ => true
  | _, posInf => true
  | posInf, _ => false
  | val _, negInf => false
  | val a, val b => decide (a ≤ b)

/-- The 64-bit floating-point value of π, as an exact rational. -/
def piF64 : ℚ := 884279719003555 / 281474976710656

/-- The crate constant TWO_PI = 2.0 * PI (exact in binary floating
point). -/
def twoPiF64 : ℚ := 2 * piF64

structure Coord where
  x : F64
  y : F64
deriving DecidableEq

/-- Check that the coordinate are finite and in a legit range
(`coord_is_valid`, src/geom/geometry/mod.rs lines 250-257). -/
def coord_is_valid (c : Coord) : Bool :=
  c.x.isFinite && c.y.isFinite && F64.fle (F64.val (-twoPiF64)) c.x &&
    F64.fle c.x (F64.val twoPiF64) && F64.fle (F64.val (-piF64)) c.y &&
    F64.fle c.y (F64.val piF64)

/-- Modelled from the spec (§1, §6): degree-to-radian unit conversion is an
external collaborator, modelled as exact scaling by π/180 with the f64 π
constant. -/
def F64.toRadians : F64 → F64
  | val q => val (q * (piF64 / 180))
  | posInf => posInf
  | negInf => negInf
  | nan => nan

def Coord.toRadians (c : Coord) : Coord := ⟨c.x.toRadians, c.y.toRadians⟩

mutual
/-- The geo crate's geometry union (the external input type of the
ingestion paths), with its coordinate payloads. -/
inductive GeoGeometry where
  | point (c : Coord)
  | line (a b : Coord)
  | lineString (cs : List Coord)
  | polygon (exterior : List Coord) (interiors : List (List Coord))
  | multiPoint (cs : List Coord)
  | multiLineString (ls : List (List Coord))
  | multiPolygon (ps : List (List Coord × List (List Coord)))
  | geometryCollection (gs : GeoGeometryList)
  | rect (a b : Coord)
  | triangle (a b c : Coord)
inductive GeoGeometryList where
  | nil
  | cons (head : GeoGeometry) (tail : GeoGeometryList)
end

mutual
/-- The h3o `Geometry` union (src/geom/geometry/mod.rs lines 37-61): one
variant per shape kind, wrapping validated radian coordinate data. -/
inductive Geometry where
  | point (c : Coord)
  | line (a b : Coord)
  | lineString (cs : List Coord)
  | polygon (exterior : List Coord) (interiors : List (List Coord))
  | multiPoint (cs : List Coord)
  | multiLineString (ls : List (List Coord))
  | multiPolygon (ps : List (List Coord × List (List Coord)))
  | geometryCollection (gs : GeometryList)
  | rect (a b : Coord)
  | triangle (a b c : Coord)
inductive GeometryList where
  | nil
  | cons (head : Geometry) (tail : GeometryList)
end

/-- The variant tags shared by the two geometry unions. -/
inductive GeoKind where
  | point
  | line
  | lineString
  | polygon
  | multiPoint
  | multiLineString
  | multiPolygon
  | geometryCollection
  | rect
  | triangle
deriving DecidableEq

def GeoGeometry.kind : GeoGeometry → GeoKind
  | .point _ => .point
  | .line _ _ => .line
  | .lineString _ => .lineString
  | .polygon _ _ => .polygon
  | .multiPoint _ => .multiPoint
  | .multiLineString _ => .multiLineString
  | .multiPolygon _ => .multiPolygon
  | .geometryCollection _ => .geometryCollection
  | .rect _ _ => .rect
  | .triangle _ _ _ => .triangle

def Geometry.kind : Geometry → GeoKind
  | .point _ => .point
  | .line _ _ => .line
  | .lineString _ => .lineString
  | .polygon _ _ => .polygon
  | .multiPoint _ => .multiPoint
  | .multiLineString _ => .multiLineString
  | .multiPolygon _ => .multiPolygon
  | .geometryCollection _ => .geometryCollection
  | .rect _ _ => .rect
  | .triangle _ _ _ => .triangle

mutual
/-- Validity of every coordinate of a geo geometry, following the spec
(§4.2: "Validity of input coordinates (finite, in-range) is checked once at
Geometry construction (`coord_is_valid`)"). -/
def GeoGeometry.coordsValid : GeoGeometry → Bool
  | .point c => coord_is_valid c
  | .line a b => coord_is_valid a && coord_is_valid b
  | .lineString cs => cs.all coord_is_valid
  | .polygon ext ints =>
    ext.all coord_is_valid && ints.all fun r => r.all coord_is_valid
  | .multiPoint cs => cs.all coord_is_valid
  | .multiLineString ls => ls.all fun r => r.all coord_is_valid
  | .multiPolygon ps =>
    ps.all fun p => p.1.all coord_is_valid && p.2.all fun r => r.all coord_is_valid
  | .geometryCollection gs => GeoGeometryList.coordsValid gs
  | .rect a b => coord_is_valid a && coord_is_valid b
  | .triangle a b c => coord_is_valid a && coord_is_valid b && coord_is_valid c
def GeoGeometryList.coordsValid : GeoGeometryList → Bool
  | .nil => true
  | .cons g t => GeoGeometry.coordsValid g && GeoGeometryList.coordsValid t
end

/-- The claim's coordinate condition, stated in its own words: the
coordinate is finite with longitude in the closed range [-2π, 2π] and
latitude in the closed range [-π, π]. -/
def specCoordOk (c : Coord) : Bool :=
  match c.x, c.y with
  | .val x, .val y =>
    decide (-(2 * piF64) ≤ x) && decide (x ≤ 2 * piF64) &&
      decide (-piF64 ≤ y) && decide (y ≤ piF64)
  | _, _ => false

mutual
/-- The claim's condition over every coordinate of a geo geometry. -/
def GeoGeometry.coordsSpecOk : GeoGeometry → Bool
  | .point c => specCoordOk c
  | .line a b => specCoordOk a && specCoordOk b
  | .lineString cs => cs.all specCoordOk
  | .polygon ext ints =>
    ext.all specCoordOk && ints.all fun r => r.all specCoordOk
  | .multiPoint cs => cs.all specCoordOk
  | .multiLineString ls => ls.all fun r => r.all specCoordOk
  | .multiPolygon ps =>
    ps.all fun p => p.1.all specCoordOk && p.2.all fun r => r.all specCoordOk
  | .geometryCollection gs => GeoGeometryList.coordsSpecOk gs
  | .rect a b => specCoordOk a && specCoordOk b
  | .triangle a b c => specCoordOk a && specCoordOk b && specCoordOk c
def GeoGeometryList.coordsSpecOk : GeoGeometryList → Bool
  | .nil => true
  | .cons g t => GeoGeometry.coordsSpecOk g && GeoGeometryList.coordsSpecOk t
end

mutual
/-- Apply a coordinate transformation to every coordinate of a geo
geometry. -/
def GeoGeometry.mapCoords (f : Coord → Coord) : GeoGeometry → GeoGeometry
  | .point c => .point (f c)
  | .line a b => .line (f a) (f b)
  | .lineString cs => .lineString (cs.map f)
  | .polygon ext ints => .polygon (ext.map f) (ints.map (List.map f))
  | .multiPoint cs => .multiPoint (cs.map f)
  | .multiLineString ls => .multiLineString (ls.map (List.map f))
  | .multiPolygon ps => .multiPolygon (ps.map fun p => (p.1.map f, p.2.map (List.map f)))
  | .geometryCollection gs => .geometryCollection (GeoGeometryList.mapCoords f gs)
  | .rect a b => .rect (f a) (f b)
  | .triangle a b c => .triangle (f a) (f b) (f c)
def GeoGeometryList.mapCoords (f : Coord → Coord) : GeoGeometryList → GeoGeometryList
  | .nil => .nil
  | .cons g t => .cons (GeoGeometry.mapCoords f g) (GeoGeometryList.mapCoords f t)
end

mutual
/-- Modelled from the spec (§3): on success each h3o variant wraps the
validated coordinate data of the corresponding geo variant (the
per-variant constructors live in submodules that are not part of the
sources). -/
def embedGeo : GeoGeometry → Geometry
  | .point c => .point c
  | .line a b => .line a b
  | .lineString cs => .lineString cs
  | .polygon ext ints => .polygon ext ints
  | .multiPoint cs => .multiPoint cs
  | .multiLineString ls => .multiLineString ls
  | .multiPolygon ps => .multiPolygon ps
  | .geometryCollection gs => .geometryCollection (embedGeoList gs)
  | .rect a b => .rect a b
  | .triangle a b c => .triangle a b c
def embedGeoList : GeoGeometryList → GeometryList
  | .nil => .nil
  | .cons g t => .cons (embedGeo g) (embedGeoList t)
end

inductive InvalidGeometry where
  | mk
deriving DecidableEq

/-- Modelled from the spec (§4.2, §6) and `Geometry::from_radians`
(src/geom/geometry/mod.rs lines 81-114): the dispatcher delegates to the
per-variant constructors (in submodules outside the sources), each of
which validates every coordinate with `coord_is_valid` and fails with
`InvalidGeometry` otherwise. -/
def Geometry.from_radians (g : GeoGeometry) : Except InvalidGeometry Geometry :=
  if GeoGeometry.coordsValid g then .ok (embedGeo g) else .error .mk

/-- Modelled from the spec (§6) and `Geometry::from_degrees`
(src/geom/geometry/mod.rs lines 133-166): every coordinate is converted
from degrees to radians on construction, then validated as for radians. -/
def Geometry.from_degrees (g : GeoGeometry) : Except InvalidGeometry Geometry :=
  Geometry.from_radians (GeoGeometry.mapCoords Coord.toRadians g)

mutual
/-- From the source (`impl From<Geometry> for geo::Geometry`,
src/geom/geometry/mod.rs lines 169-190): each variant converts back to the
geo variant of the same kind, payloads converted in place. -/
def Geometry.toGeo : Geometry → GeoGeometry
  | .point c => .point c
  | .line a b => .line a b
  | .lineString cs => .lineString cs
  | .polygon ext ints => .polygon ext ints
  | .multiPoint cs => .multiPoint cs
  | .multiLineString ls => .multiLineString ls
  | .multiPolygon ps => .multiPolygon ps
  | .geometryCollection gs => .geometryCollection (GeometryList.toGeo gs)
  | .rect a b => .rect a b
  | .triangle a b c => .triangle a b c
def GeometryList.toGeo : GeometryList → GeoGeometryList
  | .nil => .nil
  | .cons g t => .cons (Geometry.toGeo g) (GeometryList.toGeo t)
end

theorem digitsOk_cons {p : Bool} {d : Nat} {rest : List Nat}
    (h : digitsOk p (d :: rest) = true) :
    d ≤ 6 ∧ (p = true → d ≠ 1) ∧ digitsOk (p && d == 0) rest = true := by
  simp only [digitsOk, Bool.and_eq_true, decide_eq_true_eq, Bool.not_eq_true'] at h
  refine ⟨h.1.1, ?_, h.2⟩
  intro hp h1
  subst h1
  simp [hp] at h

theorem digitsOk_le {p : Bool} {l : List Nat} (h : digitsOk p l = true) :
    ∀ x ∈ l, x ≤ 6 := by
  induction l generalizing p with
  | nil => simp
  | cons d rest ih =>
    obtain ⟨h6, _, hrest⟩ := digitsOk_cons h
    intro x hx
    rcases List.mem_cons.mp hx with rfl | hx
    · exact h6
    · exact ih hrest x hx

theorem map_const_self {l : List Nat} {c : Nat} (h : ∀ x ∈ l, x = c) :
    (l.map fun _ => c) = l := by
  induction l with
  | nil => rfl
  | cons d rest ih =>
    have hd := h d (List.mem_cons_self d rest)
    simp only [List.map_cons, ih fun x hx => h x (List.mem_cons_of_mem d hx)]
    rw [hd]

theorem replicate_of_all {l : List Nat} {c : Nat} (h : ∀ x ∈ l, x = c) :
    List.replicate l.length c = l :=
  (List.eq_replicate_iff.mpr ⟨rfl, h⟩).symm

theorem decDigits_all_zero {l : List Nat} (h : ∀ x ∈ l, x = 0) (p : Bool) :
    decDigits p l = none := by
  induction l generalizing p with
  | nil => rfl
  | cons d rest ih =>
    have hd : d = 0 := h d (List.mem_cons_self d rest)
    subst hd
    simp only [decDigits, ih (fun x hx => h x (List.mem_cons_of_mem 0 hx)) (p && 0 == 0)]
    simp

theorem incDigits_none_all_six {p : Bool} {l : List Nat}
    (hok : digitsOk p l = true) (h : incDigits p l = none) : ∀ x ∈ l, x = 6 := by
  induction l generalizing p with
  | nil => simp
  | cons d rest ih =>
    obtain ⟨h6, _, hrest⟩ := digitsOk_cons hok
    intro x hx
    unfold incDigits at h
    cases h' : incDigits (p && d == 0) rest with
    | some rest' => rw [h'] at h; simp at h
    | none =>
      rw [h'] at h
      by_cases hskip : (p && d == 0) = true
      · simp [hskip] at h
      · have hd' : d = 6 := by
          simp only [Bool.not_eq_true] at hskip
          simp only [hskip, Bool.false_eq_true, if_false] at h
          by_cases hle : d + 1 ≤ 6
          · simp [hle] at h
          · omega
        rcases List.mem_cons.mp hx with rfl | hx
        · exact hd'
        · exact ih hrest h' x hx

theorem decDigits_incDigits : ∀ (l : List Nat) (p : Bool) (l' : List Nat),
    digitsOk p l = true → incDigits p l = some l' → decDigits p l' = some l := by
  intro l
  induction l with
  | nil => intro p l' _ h; simp [incDigits] at h
  | cons d rest ih =>
    intro p l' hok hinc
    obtain ⟨hd6, hd1, hrest⟩ := digitsOk_cons hok
    unfold incDigits at hinc
    cases h' : incDigits (p && d == 0) rest with
    | some rest' =>
      rw [h'] at hinc
      simp only [Option.some.injEq] at hinc
      subst hinc
      have hdec := ih (p && d == 0) rest' hrest h'
      simp only [decDigits, hdec]
    | none =>
      rw [h'] at hinc
      have hsix : ∀ x ∈ rest, x = 6 := incDigits_none_all_six hrest h'
      by_cases hskip : (p && d == 0) = true
      · -- pentagon skip: d = 0, new digit 2
        simp only [hskip, if_true] at hinc
        norm_num at hinc
        subst hinc
        have hp : p = true := ((Bool.and_eq_true _ _).mp hskip).1
        have hd0 : d = 0 := eq_of_beq ((Bool.and_eq_true _ _).mp hskip).2
        unfold decDigits
        rw [decDigits_all_zero (by simp) _]
        simp only [hp, Bool.true_and]
        norm_num
        exact ⟨hd0.symm, replicate_of_all hsix⟩
      · -- ordinary increment: new digit d + 1
        simp only [Bool.not_eq_true] at hskip
        simp only [hskip, Bool.false_eq_true, if_false] at hinc
        by_cases hle : d + 1 ≤ 6
        · simp only [hle, if_true, Option.some.injEq] at hinc
          subst hinc
          unfold decDigits
          rw [decDigits_all_zero (by simp) _]
          have hne2 : (p && d + 1 == 2) = false := by
            cases hp : p with
            | false => simp
            | true =>
              have : d ≠ 1 := hd1 hp
              simp only [Bool.true_and]
              simp only [beq_eq_false_iff_ne, ne_eq]
              omega
          simp only [hne2, Bool.false_eq_true, if_false]
          norm_num
          exact replicate_of_all hsix
        · simp [hle] at hinc

/-- Claim C1: for every valid cell index for which the successor is
defined, the predecessor of the successor is the original cell:
`c.succ().and_then(|n| n.pred())` equals `Some(c)`. -/
theorem succ_pred_inverse (c : CellIndex) (hv : c.Valid) (n : CellIndex)
    (hs : c.succ = some n) : n.pred = some c := by
  obtain ⟨-, -, -, hok⟩ := hv
  unfold CellIndex.succ at hs
  cases h' : incDigits (isPentagon c.baseCell) c.digits with
  | some ds =>
    rw [h'] at hs
    simp only [Option.some.injEq] at hs
    subst hs
    unfold CellIndex.pred
    simp only
    rw [decDigits_incDigits c.digits _ ds hok h']
  | none =>
    rw [h'] at hs
    have hsix : ∀ x ∈ c.digits, x = 6 := incDigits_none_all_six hok h'
    by_cases h121 : c.baseCell = 121
    · simp [h121] at hs
    · simp only [h121, if_false, Option.some.injEq] at hs
      subst hs
      unfold CellIndex.pred
      simp only
      rw [decDigits_all_zero (by simp) _]
      simp only [Nat.add_sub_cancel, Nat.succ_ne_zero, if_false]
      have hmap : List.map ((fun _ => 6) ∘ fun _ => 0) c.digits = c.digits :=
        map_const_self hsix
      rw [List.map_map, hmap]

/-- Witness for C1 at the pentagon fixture of spec §8 (base cell 4,
resolution 10): the successor skips the deleted subsequence and the
predecessor undoes it. -/
theorem succ_pred_inverse_witness :
    (⟨10, 4, [0, 0, 0, 0, 0, 0, 0, 0, 0, 0]⟩ : CellIndex).Valid ∧
      (⟨10, 4, [0, 0, 0, 0, 0, 0, 0, 0, 0, 0]⟩ : CellIndex).succ =
        some ⟨10, 4, [0, 0, 0, 0, 0, 0, 0, 0, 0, 2]⟩ ∧
      (⟨10, 4, [0, 0, 0, 0, 0, 0, 0, 0, 0, 2]⟩ : CellIndex).pred =
        some ⟨10, 4, [0, 0, 0, 0, 0, 0, 0, 0, 0, 0]⟩ :=
  ⟨by decide, by decide,
    succ_pred_inverse _ (by decide) _ (by decide)⟩

theorem childPosAux_lt_unrestricted {l : List Nat} (h : digitsOk false l = true) :
    childPosAux false l < 7 ^ l.length := by
  induction l with
  | nil => simp [childPosAux]
  | cons d rest ih =>
    obtain ⟨hd6, -, hrest⟩ := digitsOk_cons h
    simp only [Bool.false_and] at hrest
    have hr := ih hrest
    simp only [childPosAux, Bool.false_eq_true, if_false, List.length_cons]
    calc d * 7 ^ rest.length + childPosAux false rest
        < d * 7 ^ rest.length + 7 ^ rest.length := by omega
      _ = (d + 1) * 7 ^ rest.length := by ring
      _ ≤ 7 * 7 ^ rest.length := Nat.mul_le_mul_right _ (by omega)
      _ = 7 ^ (rest.length + 1) := by ring

theorem childPosAux_lt_pent {l : List Nat} (h : digitsOk true l = true) :
    childPosAux true l < pentCount l.length := by
  induction l with
  | nil => simp [childPosAux, pentCount]
  | cons d rest ih =>
    obtain ⟨hd6, hd1, hrest⟩ := digitsOk_cons h
    simp only [Bool.true_and] at hrest
    simp only [childPosAux, if_true, List.length_cons, pentCount]
    by_cases hd0 : d = 0
    · subst hd0
      simp only [show ((0 : Nat) == 0) = true from rfl, if_true]
      have := ih (by simpa using hrest)
      omega
    · have hne : (d == 0) = false := by simpa using hd0
      rw [hne] at hrest
      simp only [hne, Bool.false_eq_true, if_false]
      have hrb := childPosAux_lt_unrestricted hrest
      have h7 : (d - 2) * 7 ^ rest.length ≤ 4 * 7 ^ rest.length :=
        Nat.mul_le_mul_right _ (by omega)
      omega

theorem childAtAux_childPosAux : ∀ (l : List Nat) (p : Bool), digitsOk p l = true →
    childAtAux p l.length (childPosAux p l) = some l := by
  intro l
  induction l with
  | nil =>
    intro p _
    simp [childAtAux, childPosAux]
  | cons d rest ih =>
    intro p hok
    obtain ⟨hd6, hd1, hrest⟩ := digitsOk_cons hok
    cases hp : p with
    | false =>
      rw [hp] at hrest
      simp only [Bool.false_and] at hrest
      have hrb := childPosAux_lt_unrestricted hrest
      simp only [childPosAux, childAtAux, List.length_cons, Bool.false_eq_true, if_false]
      have hdiv : (d * 7 ^ rest.length + childPosAux false rest) / 7 ^ rest.length = d := by
        rw [mul_comm, Nat.mul_add_div (by positivity)]
        rw [Nat.div_eq_of_lt hrb]
        omega
      have hmod : (d * 7 ^ rest.length + childPosAux false rest) % 7 ^ rest.length =
          childPosAux false rest := by
        rw [mul_comm, Nat.mul_add_mod, Nat.mod_eq_of_lt hrb]
      rw [hdiv, hmod]
      simp only [hd6, if_true]
      rw [ih false hrest]
      rfl
    | true =>
      rw [hp] at hrest
      simp only [Bool.true_and] at hrest
      by_cases hd0 : d = 0
      · subst hd0
        simp only [show ((0 : Nat) == 0) = true from rfl] at hrest
        simp only [childPosAux, childAtAux, List.length_cons, if_true,
          show ((0 : Nat) == 0) = true from rfl]
        have hlt := childPosAux_lt_pent hrest
        rw [if_pos hlt, ih true hrest]
        rfl
      · have hne : (d == 0) = false := by simpa using hd0
        rw [hne] at hrest
        have hd2 : 2 ≤ d := by
          have : d ≠ 1 := hd1 hp
          omega
        have hrb := childPosAux_lt_unrestricted hrest
        simp only [childPosAux, childAtAux, List.length_cons, if_true, hne,
          Bool.false_eq_true, if_false]
        have hge : ¬(pentCount rest.length + (d - 2) * 7 ^ rest.length +
            childPosAux false rest < pentCount rest.length) := by omega
        rw [if_neg hge]
        have hsub : pentCount rest.length + (d - 2) * 7 ^ rest.length +
            childPosAux false rest - pentCount rest.length =
            (d - 2) * 7 ^ rest.length + childPosAux false rest := by omega
        rw [hsub]
        have hdiv : ((d - 2) * 7 ^ rest.length + childPosAux false rest) / 7 ^ rest.length =
            d - 2 := by
          rw [mul_comm, Nat.mul_add_div (by positivity)]
          rw [Nat.div_eq_of_lt hrb]
          omega
        have hmod : ((d - 2) * 7 ^ rest.length + childPosAux false rest) % 7 ^ rest.length =
            childPosAux false rest := by
          rw [mul_comm, Nat.mul_add_mod, Nat.mod_eq_of_lt hrb]
        rw [hdiv, hmod]
        have hd6' : d - 2 + 2 ≤ 6 := by omega
        rw [if_pos hd6', ih false hrest]
        have hdd : d - 2 + 2 = d := by omega
        rw [hdd]
        rfl

theorem digitsOk_drop : ∀ (r : Nat) (l : List Nat) (p : Bool), digitsOk p l = true →
    digitsOk (p && (l.take r).all (· == 0)) (l.drop r) = true := by
  intro r
  induction r with
  | zero => intro l p h; simpa using h
  | succ r ih =>
    intro l p h
    cases l with
    | nil => simp [digitsOk]
    | cons d t =>
      obtain ⟨-, -, hrest⟩ := digitsOk_cons h
      have := ih t (p && d == 0) hrest
      simpa [Bool.and_assoc] using this

/-- Claim C3: for every valid cell and every ancestor resolution at or
above it, `c.child_position(r).and_then(|p| c.parent(r).child_at(p,
c.resolution()))` reconstructs the cell: child position indexing is the
exact inverse of child-at navigation. -/
theorem child_position_child_at_roundtrip (c : CellIndex) (hv : c.Valid) (r : Nat)
    (hr : r ≤ c.resolution) :
    (c.childPosition r).bind
      (fun p => (c.parent r).bind fun q => q.childAt p c.resolution) = some c := by
  obtain ⟨hres, hbase, hlen, hok⟩ := hv
  unfold CellIndex.childPosition CellIndex.parent CellIndex.childAt
  simp only [hr, if_true, Option.bind_some, Option.some_bind]
  have hdrop_len : (c.digits.drop r).length = c.resolution - r := by
    rw [List.length_drop, hlen]
  have hokdrop :
      digitsOk (isPentagon c.baseCell && (c.digits.take r).all (· == 0)) (c.digits.drop r) =
        true :=
    digitsOk_drop r c.digits (isPentagon c.baseCell) hok
  rw [← hdrop_len, childAtAux_childPosAux _ _ hokdrop]
  simp only [List.take_append_drop]

/-- Witness for C3: a concrete pentagon-rooted cell at resolution 2,
reconstructed from its position below its resolution-0 ancestor. -/
theorem child_position_child_at_roundtrip_witness :
    (⟨2, 4, [0, 3]⟩ : CellIndex).Valid ∧ 0 ≤ 2 ∧
      ((⟨2, 4, [0, 3]⟩ : CellIndex).childPosition 0).bind
        (fun p => ((⟨2, 4, [0, 3]⟩ : CellIndex).parent 0).bind
          fun q => q.childAt p 2) = some ⟨2, 4, [0, 3]⟩ :=
  ⟨by decide, by decide,
    child_position_child_at_roundtrip ⟨2, 4, [0, 3]⟩ (by decide) 0 (by decide)⟩

/-- Claim C2: the resolution-10 odometer fixtures of spec §8: plain step,
single carry, cascading carry, cascade into the base cell, absence of a
successor at the global maximum, and the pentagon deleted-subsequence
skip. -/
theorem succ_fixtures :
    (tryFrom 0o42417664314213377777).bind CellIndex.succ = tryFrom 0o42417664314213477777 ∧
      (tryFrom 0o42417664314213677777).bind CellIndex.succ = tryFrom 0o42417664314214077777 ∧
      (tryFrom 0o42417664314666677777).bind CellIndex.succ = tryFrom 0o42417664315000077777 ∧
      (tryFrom 0o42466666666666677777).bind CellIndex.succ = tryFrom 0o42467000000000077777 ∧
      (tryFrom 0o42571666666666677777).bind CellIndex.succ = none ∧
      (tryFrom 0o42404000000000077777).bind CellIndex.succ = tryFrom 0o42404000000000277777 := by
  refine ⟨?_, ?_, ?_, ?_, ?_, ?_⟩ <;> decide

/-- Claim C4: at every resolution the first index has no predecessor and
the last index has no successor. -/
theorem first_last_boundary :
    ∀ r : Fin 16, (CellIndex.first r.val).pred = none ∧ (CellIndex.last r.val).succ = none := by
  decide

/-- Claim C7: the format cross-check of spec §8 on cell
`0x8a1fb46622dffff`: the default display is the lowercase hexadecimal of
the 64-bit value, and uppercase hexadecimal, octal and binary render the
same integer. -/
theorem display_fixtures :
    (tryFrom 0x8a1fb46622dffff).map CellIndex.display = some "8a1fb46622dffff" ∧
      (tryFrom 0x8a1fb46622dffff).map CellIndex.displayUpperHex = some "8A1FB46622DFFFF" ∧
      (tryFrom 0x8a1fb46622dffff).map CellIndex.displayOctal = some "42417664314213377777" ∧
      (tryFrom 0x8a1fb46622dffff).map CellIndex.displayBinary =
        some "100010100001111110110100011001100010001011011111111111111111" := by
  refine ⟨?_, ?_, ?_, ?_⟩ <;> decide

theorem toRadixAux_append (upper : Bool) (b : Nat) :
    ∀ (fuel n : Nat) (acc : List Char),
      toRadixAux upper b fuel n acc = toRadixAux upper b fuel n [] ++ acc := by
  intro fuel
  induction fuel with
  | zero => intro n acc; rfl
  | succ fuel ih =>
    intro n acc
    simp only [toRadixAux]
    by_cases h : n < b
    · simp [h]
    · simp only [h, if_false]
      rw [ih (n / b) [digitChar upper (n % b)], ih (n / b) (digitChar upper (n % b) :: acc)]
      simp

theorem toRadixAux_ne_nil (upper : Bool) (b fuel n : Nat) :
    toRadixAux upper b (fuel + 1) n [] ≠ [] := by
  simp only [toRadixAux]
  by_cases h : n < b
  · simp [h]
  · simp only [h, if_false]
    rw [toRadixAux_append]
    simp

theorem parseHexAux_append : ∀ (l1 l2 : List Char) (v : Nat),
    parseHexAux (l1 ++ l2) v =
      match parseHexAux l1 v with
      | some w => parseHexAux l2 w
      | none => none := by
  intro l1
  induction l1 with
  | nil => intro l2 v; rfl
  | cons ch t ih =>
    intro l2 v
    simp only [List.cons_append, parseHexAux]
    cases hexVal ch with
    | some w => exact ih l2 (v * 16 + w)
    | none => rfl

theorem hexVal_digitChar : ∀ m : Fin 16, hexVal (digitChar false m.val) = some m.val := by
  decide

theorem parseHexAux_toRadixAux : ∀ (fuel n : Nat), n < fuel → ∀ v : Nat,
    parseHexAux (toRadixAux false 16 fuel n []) v =
      some (v * 16 ^ (toRadixAux false 16 fuel n []).length + n) := by
  intro fuel
  induction fuel with
  | zero => omega
  | succ fuel ih =>
    intro n hn v
    by_cases h : n < 16
    · have hmod : n % 16 = n := Nat.mod_eq_of_lt h
      simp only [toRadixAux, h, if_true, hmod]
      have hv := hexVal_digitChar ⟨n, h⟩
      simp only [parseHexAux, hv]
      simp
    · simp only [toRadixAux, h, if_false]
      rw [toRadixAux_append false 16 fuel (n / 16) [digitChar false (n % 16)]]
      rw [parseHexAux_append]
      have hdiv : n / 16 < fuel := by
        have h1 : n / 16 < n := Nat.div_lt_self (by omega) (by norm_num)
        omega
      rw [ih (n / 16) hdiv v]
      have hv := hexVal_digitChar ⟨n % 16, Nat.mod_lt _ (by norm_num)⟩
      simp only [parseHexAux, hv]
      simp only [List.length_append, List.length_cons, List.length_nil]
      congr 1
      have hnd : 16 * (n / 16) + n % 16 = n := Nat.div_add_mod n 16
      set L := (toRadixAux false 16 fuel (n / 16) []).length
      calc (v * 16 ^ L + n / 16) * 16 + n % 16
          = v * (16 ^ L * 16) + (16 * (n / 16) + n % 16) := by ring
        _ = v * 16 ^ (L + 1) + n := by rw [← pow_succ, hnd]
        _ = v * 16 ^ (L + 0 + 1) + n := by norm_num

theorem foldlOct_acc : ∀ (l : List Nat) (a : Nat),
    l.foldl (fun x y => x * 8 + y) a = a * 8 ^ l.length + l.foldl (fun x y => x * 8 + y) 0 := by
  intro l
  induction l with
  | nil => intro a; simp
  | cons d t ih =>
    intro a
    simp only [List.foldl_cons, Nat.zero_mul, Nat.zero_add]
    rw [ih (a * 8 + d), ih d]
    simp only [List.length_cons]
    ring

theorem ofOctal_cons (d : Nat) (t : List Nat) :
    ofOctal (d :: t) = d * 8 ^ t.length + ofOctal t := by
  unfold ofOctal
  simp only [List.foldl_cons, Nat.zero_mul, Nat.zero_add]
  exact foldlOct_acc t d

theorem ofOctal_lt : ∀ l : List Nat, (∀ x ∈ l, x < 8) → ofOctal l < 8 ^ l.length := by
  intro l
  induction l with
  | nil => intro _; simp [ofOctal]
  | cons d t ih =>
    intro h
    have hd : d < 8 := h d (List.mem_cons_self d t)
    have ht := ih fun x hx => h x (List.mem_cons_of_mem d hx)
    rw [ofOctal_cons]
    simp only [List.length_cons]
    calc d * 8 ^ t.length + ofOctal t < d * 8 ^ t.length + 8 ^ t.length := by omega
      _ = (d + 1) * 8 ^ t.length := by ring
      _ ≤ 8 * 8 ^ t.length := Nat.mul_le_mul_right _ (by omega)
      _ = 8 ^ (t.length + 1) := by ring

theorem ofOctal_extract : ∀ (l : List Nat), (∀ x ∈ l, x < 8) →
    ∀ (i : Nat) (hi : i < l.length),
      ofOctal l / 8 ^ (l.length - 1 - i) % 8 = l.get ⟨i, hi⟩ := by
  intro l
  induction l with
  | nil => intro _ i hi; simp at hi
  | cons d t ih =>
    intro h i hi
    have hd : d < 8 := h d (List.mem_cons_self d t)
    have ht : ∀ x ∈ t, x < 8 := fun x hx => h x (List.mem_cons_of_mem d hx)
    rw [ofOctal_cons]
    cases i with
    | zero =>
      simp only [List.length_cons, Nat.add_sub_cancel, Nat.sub_zero, List.get]
      rw [mul_comm, Nat.mul_add_div (by positivity), Nat.div_eq_of_lt (ofOctal_lt t ht)]
      omega
    | succ i =>
      have hi' : i < t.length := by simpa using hi
      simp only [List.length_cons, List.get]
      have he : t.length - 1 - i + (i + 1) = t.length := by omega
      have hpow : (8 : Nat) ^ t.length = 8 ^ (i + 1) * 8 ^ (t.length - 1 - i) := by
        rw [← pow_add]
        congr 1
        omega
      rw [hpow, show t.length + 1 - 1 - (i + 1) = t.length - 1 - i by omega]
      rw [show d * (8 ^ (i + 1) * 8 ^ (t.length - 1 - i)) =
        8 ^ (t.length - 1 - i) * (d * 8 ^ (i + 1)) by ring]
      rw [Nat.mul_add_div (by positivity)]
      rw [show d * 8 ^ (i + 1) + ofOctal t / 8 ^ (t.length - 1 - i) =
        8 * (d * 8 ^ i) + ofOctal t / 8 ^ (t.length - 1 - i) by ring]
      rw [Nat.mul_add_mod]
      exact ih ht i hi'

theorem slots_lt (c : CellIndex) (hok : digitsOk (isPentagon c.baseCell) c.digits = true) :
    ∀ x ∈ c.digits ++ List.replicate (15 - c.resolution) 7, x < 8 := by
  intro x hx
  rcases List.mem_append.mp hx with hx | hx
  · have := digitsOk_le hok x hx
    omega
  · have := List.eq_of_mem_replicate hx
    omega

theorem slots_length (c : CellIndex) (hres : c.resolution ≤ 15)
    (hlen : c.digits.length = c.resolution) :
    (c.digits ++ List.replicate (15 - c.resolution) 7).length = 15 := by
  simp only [List.length_append, List.length_replicate, hlen]
  omega

theorem ofOctal_slots_lt (c : CellIndex) (hres : c.resolution ≤ 15)
    (hlen : c.digits.length = c.resolution)
    (hok : digitsOk (isPentagon c.baseCell) c.digits = true) :
    ofOctal (c.digits ++ List.replicate (15 - c.resolution) 7) < 35184372088832 := by
  have h1 := ofOctal_lt _ (slots_lt c hok)
  rw [slots_length c hres hlen] at h1
  norm_num at h1
  exact h1

theorem toRaw_lt (c : CellIndex) (hv : c.Valid) : c.toRaw < 2 ^ 64 := by
  obtain ⟨hres, hbase, hlen, hok⟩ := hv
  have hS := ofOctal_slots_lt c hres hlen hok
  unfold CellIndex.toRaw
  have e1 : (2 : Nat) ^ 56 = 72057594037927936 := by norm_num
  have e2 : (2 : Nat) ^ 52 = 4503599627370496 := by norm_num
  have e3 : (2 : Nat) ^ 45 = 35184372088832 := by norm_num
  have e4 : (2 : Nat) ^ 64 = 18446744073709551616 := by norm_num
  rw [e1, e2, e3, e4]
  omega

theorem tryFrom_toRaw (c : CellIndex) (hv : c.Valid) : tryFrom c.toRaw = some c := by
  obtain ⟨hres, hbase, hlen, hok⟩ := hv
  have hslen := slots_length c hres hlen
  have hall8 := slots_lt c hok
  have hS := ofOctal_slots_lt c hres hlen hok
  have e1 : (2 : Nat) ^ 56 = 72057594037927936 := by norm_num
  have e2 : (2 : Nat) ^ 52 = 4503599627370496 := by norm_num
  have e3 : (2 : Nat) ^ 45 = 35184372088832 := by norm_num
  have h56 : c.toRaw / 2 ^ 56 = 8 := by
    unfold CellIndex.toRaw
    rw [e1, e2, e3]
    rw [e1] at *
    omega
  have h52 : c.toRaw / 2 ^ 52 % 16 = c.resolution := by
    unfold CellIndex.toRaw
    rw [e1, e2, e3]
    omega
  have h45 : c.toRaw / 2 ^ 45 % 128 = c.baseCell := by
    unfold CellIndex.toRaw
    rw [e1, e2, e3]
    omega
  have hslot : ∀ (i : Nat) (hi : i < 15), c.toRaw / 8 ^ (14 - i) % 8 =
      (c.digits ++ List.replicate (15 - c.resolution) 7).get ⟨i, by omega⟩ := by
    intro i hi
    have hpow : (2 : Nat) ^ 45 = 8 ^ (14 - i) * 2 ^ (45 - 3 * (14 - i)) := by
      rw [show (8 : Nat) = 2 ^ 3 by norm_num, ← pow_mul, ← pow_add]
      congr 1
      omega
    have hsplit : c.toRaw = 8 ^ (14 - i) *
        ((8 * 2 ^ 11 + c.resolution * 2 ^ 7 + c.baseCell) * 2 ^ (45 - 3 * (14 - i))) +
        ofOctal (c.digits ++ List.replicate (15 - c.resolution) 7) := by
      unfold CellIndex.toRaw
      rw [show (8 : Nat) * 2 ^ 56 + c.resolution * 2 ^ 52 + c.baseCell * 2 ^ 45 =
        (8 * 2 ^ 11 + c.resolution * 2 ^ 7 + c.baseCell) * 2 ^ 45 by ring]
      rw [hpow]
      ring
    rw [hsplit, Nat.mul_add_div (by positivity)]
    rw [show (8 * 2 ^ 11 + c.resolution * 2 ^ 7 + c.baseCell) * 2 ^ (45 - 3 * (14 - i)) =
      8 * ((8 * 2 ^ 11 + c.resolution * 2 ^ 7 + c.baseCell) * 2 ^ (45 - 3 * (14 - i) - 3)) by
        have hq : (2 : Nat) ^ (45 - 3 * (14 - i)) = 2 ^ 3 * 2 ^ (45 - 3 * (14 - i) - 3) := by
          rw [← pow_add]
          congr 1
          omega
        rw [hq]
        ring]
    rw [Nat.mul_add_mod]
    have hlen14 : (c.digits ++ List.replicate (15 - c.resolution) 7).length - 1 - i = 14 - i := by
      rw [hslen]
    rw [← hlen14]
    exact ofOctal_extract _ hall8 i (by omega)
  have hlist : rawSlots c.toRaw = c.digits ++ List.replicate (15 - c.resolution) 7 := by
    apply List.ext_get
    · simp only [rawSlots, List.length_map, List.length_range, hslen]
    · intro i h1 h2
      simp only [rawSlots, List.get_eq_getElem, List.getElem_map, List.getElem_range]
      have hi15 : i < 15 := by simpa [rawSlots] using h1
      have := hslot i hi15
      simpa using this
  have htake : (c.digits ++ List.replicate (15 - c.resolution) 7).take c.resolution =
      c.digits := by
    rw [← hlen]
    exact List.take_left _ _
  have hdrop : (c.digits ++ List.replicate (15 - c.resolution) 7).drop c.resolution =
      List.replicate (15 - c.resolution) 7 := by
    rw [← hlen]
    exact List.drop_left _ _
  unfold tryFrom
  rw [hlist, h52, h45, h56, htake, hdrop]
  have hall7 : (List.replicate (15 - c.resolution) 7).all (· == 7) = true := by
    simp [List.all_eq_true, List.eq_of_mem_replicate]
  rw [if_pos ⟨rfl, hbase, hok, hall7⟩]

/-- Claim C6: the default string form round-trips through parsing for every
valid cell, and parsing the string "no bueno" fails. -/
theorem parse_display_roundtrip :
    (∀ c : CellIndex, c.Valid → parseCell c.display = some c) ∧
      parseCell "no bueno" = none := by
  constructor
  · intro c hv
    show parseCellChars (toRadixAux false 16 (c.toRaw + 1) c.toRaw []) = some c
    unfold parseCellChars
    rw [if_neg (toRadixAux_ne_nil false 16 c.toRaw c.toRaw)]
    rw [parseHexAux_toRadixAux (c.toRaw + 1) c.toRaw (Nat.lt_succ_self _) 0]
    simp only [Nat.zero_mul, Nat.zero_add]
    show (if c.toRaw < 2 ^ 64 then tryFrom c.toRaw else none) = some c
    rw [if_pos (toRaw_lt c hv)]
    exact tryFrom_toRaw c hv
  · decide

/-- Witness for C6 at the resolution-0 cell with base cell 0. -/
theorem parse_display_roundtrip_witness :
    (⟨0, 0, []⟩ : CellIndex).Valid ∧
      parseCell (⟨0, 0, []⟩ : CellIndex).display = some ⟨0, 0, []⟩ :=
  ⟨by decide, parse_display_roundtrip.1 ⟨0, 0, []⟩ (by decide)⟩

theorem coord_is_valid_eq_specCoordOk (c : Coord) : coord_is_valid c = specCoordOk c := by
  obtain ⟨x, y⟩ := c
  cases x <;> cases y <;>
    simp [coord_is_valid, specCoordOk, F64.isFinite, F64.fle, twoPiF64]

theorem coord_is_valid_funext : coord_is_valid = specCoordOk :=
  funext coord_is_valid_eq_specCoordOk

mutual
theorem GeoGeometry.coordsValid_eq_specOk :
    ∀ g : GeoGeometry, g.coordsValid = g.coordsSpecOk
  | .point c => by
    simp [GeoGeometry.coordsValid, GeoGeometry.coordsSpecOk, coord_is_valid_funext]
  | .line a b => by
    simp [GeoGeometry.coordsValid, GeoGeometry.coordsSpecOk, coord_is_valid_funext]
  | .lineString cs => by
    simp [GeoGeometry.coordsValid, GeoGeometry.coordsSpecOk, coord_is_valid_funext]
  | .polygon ext ints => by
    simp [GeoGeometry.coordsValid, GeoGeometry.coordsSpecOk, coord_is_valid_funext]
  | .multiPoint cs => by
    simp [GeoGeometry.coordsValid, GeoGeometry.coordsSpecOk, coord_is_valid_funext]
  | .multiLineString ls => by
    simp [GeoGeometry.coordsValid, GeoGeometry.coordsSpecOk, coord_is_valid_funext]
  | .multiPolygon ps => by
    simp [GeoGeometry.coordsValid, GeoGeometry.coordsSpecOk, coord_is_valid_funext]
  | .geometryCollection gs => by
    have h := geoList_coordsValid_eq_specOk gs
    simp [GeoGeometry.coordsValid, GeoGeometry.coordsSpecOk, h]
  | .rect a b => by
    simp [GeoGeometry.coordsValid, GeoGeometry.coordsSpecOk, coord_is_valid_funext]
  | .triangle a b c => by
    simp [GeoGeometry.coordsValid, GeoGeometry.coordsSpecOk, coord_is_valid_funext]
theorem geoList_coordsValid_eq_specOk :
    ∀ l : GeoGeometryList, l.coordsValid = l.coordsSpecOk
  | .nil => rfl
  | .cons g t => by
    have h1 := GeoGeometry.coordsValid_eq_specOk g
    have h2 := geoList_coordsValid_eq_specOk t
    simp [GeoGeometryList.coordsValid, GeoGeometryList.coordsSpecOk, h1, h2]
end

/-- Claim C9 (amended): construction from radians succeeds precisely when
every coordinate is finite with longitude in [-2π, 2π] and latitude in
[-π, π] (any violation failing with `InvalidGeometry`); construction from
degrees converts every coordinate to radians first and applies the same
criterion to the converted values. -/
theorem geometry_construction_ok_iff (g : GeoGeometry) :
    ((Geometry.from_radians g).isOk = true ↔ g.coordsSpecOk = true) ∧
      ((Geometry.from_degrees g).isOk = true ↔
        (GeoGeometry.mapCoords Coord.toRadians g).coordsSpecOk = true) := by
  constructor
  · unfold Geometry.from_radians
    rw [← GeoGeometry.coordsValid_eq_specOk]
    cases h : GeoGeometry.coordsValid g <;> simp [h, Except.isOk, Except.toBool]
  · unfold Geometry.from_degrees Geometry.from_radians
    rw [← GeoGeometry.coordsValid_eq_specOk]
    cases h : GeoGeometry.coordsValid (GeoGeometry.mapCoords Coord.toRadians g) <;>
      simp [h, Except.isOk, Except.toBool]

/-- Counterexample to claim C9 as stated: construction from degrees of the
point with input coordinates (90, 45) — degrees — succeeds, although the
input coordinates are not in the stated ranges [-2π, 2π] and [-π, π], so
success is not equivalent to the input coordinates being in range. -/
theorem from_degrees_input_range_counterexample :
    (Geometry.from_degrees (.point ⟨.val 90, .val 45⟩)).isOk = true ∧
      GeoGeometry.coordsSpecOk (.point ⟨.val 90, .val 45⟩) = false := by
  constructor
  · unfold Geometry.from_degrees Geometry.from_radians
    have hcv : GeoGeometry.coordsValid
        (GeoGeometry.mapCoords Coord.toRadians (.point ⟨.val 90, .val 45⟩)) = true := by
      simp only [GeoGeometry.mapCoords, Coord.toRadians, F64.toRadians,
        GeoGeometry.coordsValid, coord_is_valid, F64.isFinite, F64.fle, twoPiF64, piF64]
      simp only [Bool.and_eq_true, decide_eq_true_eq, Bool.true_and]
      norm_num
    rw [if_pos hcv]
    rfl
  · simp only [GeoGeometry.coordsSpecOk, specCoordOk, piF64]
    rw [Bool.eq_false_iff]
    intro h
    simp only [Bool.and_eq_true, decide_eq_true_eq] at h
    obtain ⟨⟨⟨-, h2⟩, -⟩, -⟩ := h
    norm_num at h2

/-- Claim C10: converting an h3o geometry back into a geo geometry maps
every variant to the geo variant of the same kind. -/
theorem toGeo_preserves_kind (g : Geometry) : (Geometry.toGeo g).kind = g.kind := by
  cases g <;> rfl

